import Mathlib

/-!
Verification of the FF3/FF3-1 format-preserving encryption core of
`lib/FF3Cipher.js` (the mysto node `ff3` package), as a shallow embedding.

Modelling conventions:
* Byte strings (`Buffer`/`Uint8Array`) are `List Nat` with entries < 256.
* Digit strings are `List Nat` of symbol values: the k-th symbol of the
  alphabet `"0".."9","a".."z"` is modelled as the value `k`; the radix's
  zero symbol `'0'` is the value `0`.  `BigInt.toString(radix)` produces
  exactly the lowercase minimal representation, and `parseInt(chunk, radix)`
  on a valid 10-symbol chunk is exact (chunk value < 36^10 < 2^53), so both
  are modelled by exact positional arithmetic on symbol values.
* Arbitrary-precision `BigInt` values are `Nat`/`Int`; the JavaScript `%`
  (truncating remainder) on `BigInt` is `Int.tmod`.
* Fallible code (`throw`) returns `Except FF3Error _`; the error constructors
  stand for the thrown message strings.
* The AES block cipher is external to the repository (Node `crypto`,
  out-of-scope per the spec, which treats it as a deterministic block
  permutation oracle `encryptBlock(key, 16 bytes) → 16 bytes`).  The Feistel
  engine is therefore parameterised by an oracle family
  `aes : List Nat → List Nat → List Nat` (key → block → block); for concrete
  evaluations we instantiate it with `aes128Block`, a model of AES-128
  (the variant the constructor selects for 16-byte keys), built from the
  FIPS-197 standard.
-/

namespace FF3

/-! ## The external block-permutation oracle, instantiated as AES-128.
Modelled from the spec: the underlying fixed-block keyed permutation is not
part of the repository (spec §6: `encryptBlock(key, 16 bytes) → 16 bytes`,
deterministic, no padding, no chaining); we model the AES-128 instance the
constructor selects for 16-byte keys, following FIPS-197. -/

def sbox : List Nat :=
  [99, 124, 119, 123, 242, 107, 111, 197, 48, 1, 103, 43, 254, 215, 171, 118,
   202, 130, 201, 125, 250, 89, 71, 240, 173, 212, 162, 175, 156, 164, 114, 192,
   183, 253, 147, 38, 54, 63, 247, 204, 52, 165, 229, 241, 113, 216, 49, 21,
   4, 199, 35, 195, 24, 150, 5, 154, 7, 18, 128, 226, 235, 39, 178, 117,
   9, 131, 44, 26, 27, 110, 90, 160, 82, 59, 214, 179, 41, 227, 47, 132,
   83, 209, 0, 237, 32, 252, 177, 91, 106, 203, 190, 57, 74, 76, 88, 207,
   208, 239, 170, 251, 67, 77, 51, 133, 69, 249, 2, 127, 80, 60, 159, 168,
   81, 163, 64, 143, 146, 157, 56, 245, 188, 182, 218, 33, 16, 255, 243, 210,
   205, 12, 19, 236, 95, 151, 68, 23, 196, 167, 126, 61, 100, 93, 25, 115,
   96, 129, 79, 220, 34, 42, 144, 136, 70, 238, 184, 20, 222, 94, 11, 219,
   224, 50, 58, 10, 73, 6, 36, 92, 194, 211, 172, 98, 145, 149, 228, 121,
   231, 200, 55, 109, 141, 213, 78, 169, 108, 86, 244, 234, 101, 122, 174, 8,
   186, 120, 37, 46, 28, 166, 180, 198, 232, 221, 116, 31, 75, 189, 139, 138,
   112, 62, 181, 102, 72, 3, 246, 14, 97, 53, 87, 185, 134, 193, 29, 158,
   225, 248, 152, 17, 105, 217, 142, 148, 155, 30, 135, 233, 206, 85, 40, 223,
   140, 161, 137, 13, 191, 230, 66, 104, 65, 153, 45, 15, 176, 84, 187, 22]

def xtime (b : Nat) : Nat :=
  if 128 ≤ b then ((b * 2) ^^^ 0x1B) % 256 else b * 2

def sub1 (b : Nat) : Nat := sbox.getD b 0

def subWord (w : List Nat) : List Nat := w.map sub1

def rotWord (w : List Nat) : List Nat := w.drop 1 ++ w.take 1

def rconList : List Nat := [1, 2, 4, 8, 16, 32, 64, 128, 27, 54]

def xorWords (a b : List Nat) : List Nat := List.zipWith Nat.xor a b

/-- AES-128 key schedule: 44 four-byte words. -/
def keyWords (key : List Nat) : List (List Nat) :=
  (List.range 40).foldl
    (fun ws j =>
      let i := j + 4
      let prev := ws.getD (i - 1) []
      let t :=
        if i % 4 = 0 then
          xorWords (subWord (rotWord prev)) [rconList.getD (i / 4 - 1) 0, 0, 0, 0]
        else prev
      ws ++ [xorWords (ws.getD (i - 4) []) t])
    [key.take 4, (key.drop 4).take 4, (key.drop 8).take 4, (key.drop 12).take 4]

def roundKey (ws : List (List Nat)) (r : Nat) : List Nat :=
  ((ws.drop (4 * r)).take 4).flatten

def addRoundKey (st k : List Nat) : List Nat := List.zipWith Nat.xor st k

def subBytes (st : List Nat) : List Nat := st.map sub1

/-- ShiftRows on the flat column-major AES state (byte `r + 4c`). -/
def shiftRows (st : List Nat) : List Nat :=
  [0, 5, 10, 15, 4, 9, 14, 3, 8, 13, 2, 7, 12, 1, 6, 11].map (fun i => st.getD i 0)

def mixOneCol (a : List Nat) : List Nat :=
  let a0 := a.getD 0 0; let a1 := a.getD 1 0; let a2 := a.getD 2 0; let a3 := a.getD 3 0
  [xtime a0 ^^^ (xtime a1 ^^^ a1) ^^^ a2 ^^^ a3,
   a0 ^^^ xtime a1 ^^^ (xtime a2 ^^^ a2) ^^^ a3,
   a0 ^^^ a1 ^^^ xtime a2 ^^^ (xtime a3 ^^^ a3),
   (xtime a0 ^^^ a0) ^^^ a1 ^^^ a2 ^^^ xtime a3]

def mixColumns (st : List Nat) : List Nat :=
  ((st.take 4) |> mixOneCol) ++ (((st.drop 4).take 4) |> mixOneCol) ++
  (((st.drop 8).take 4) |> mixOneCol) ++ (((st.drop 12).take 4) |> mixOneCol)

/-- AES-128 single-block encryption in ECB mode with no padding: the pure
block-permutation oracle `this.aesCipher.update` as created by the
constructor (`crypto.createCipheriv("aes-128-ecb", keyBytes, '')`). -/
def aes128Block (key block : List Nat) : List Nat :=
  let ws := keyWords key
  let st0 := addRoundKey block (roundKey ws 0)
  let st :=
    (List.range 9).foldl
      (fun s r => addRoundKey (mixColumns (shiftRows (subBytes s))) (roundKey ws (r + 1)))
      st0
  addRoundKey (shiftRows (subBytes st)) (roundKey ws 10)

/-! ## The FF3 core, embedded from `lib/FF3Cipher.js`. -/

/-- Embeds `reverseString` (`FF3Cipher.js:28`). -/
def reverseString (s : List Nat) : List Nat := s.reverse

/-- Value of `parseInt(v, radix)` on a list of symbol values (exact for the
≤ 10-symbol chunks `convertToBigInt` feeds it, whose values are < 2^53). -/
def digitsVal (radix : Nat) (v : List Nat) : Nat :=
  v.foldl (fun a d => a * radix + d) 0

/-- Fuel-based helper for `chunks10` (structural recursion so that the kernel
can evaluate it; the fuel never runs out when it starts at the list length,
see `chunks10_eq`). -/
def chunks10Aux : Nat → List Nat → List (List Nat)
  | _, [] => []
  | 0, _ :: _ => []
  | fuel + 1, x :: xs => ((x :: xs).take 10) :: chunks10Aux fuel ((x :: xs).drop 10)

/-- The `while (i < value.length) parts.push(value.slice(i, i += size))` loop
of `convertToBigInt`, slicing into chunks of 10. -/
def chunks10 (l : List Nat) : List (List Nat) := chunks10Aux l.length l

/-- Embeds `convertToBigInt(value, radix)` (`FF3Cipher.js:34-43`): the first
chunk has length `value.length % 10 || 10`, later chunks have length 10, and
the chunk values are accumulated by `r * radix^10 + parseInt(chunk, radix)`. -/
def convertToBigInt (value : List Nat) (radix : Nat) : Nat :=
  let size := 10
  let factor := radix ^ size
  let i := if value.length % size = 0 then size else value.length % size
  let parts := value.take i :: chunks10 (value.drop i)
  parts.foldl (fun r v => r * factor + digitsVal radix v) 0

/-- Embeds `bigToUint8Array` (`FF3Cipher.js:45-65`) on nonnegative inputs
(the only ones it ever receives: its argument is a `convertToBigInt` result):
`big.toString(16)` zero-padded to even length and split into byte pairs is
exactly the minimal big-endian byte encoding, with `0 ↦ [0]`.  Structured with
fuel (never exhausted when started at `big`, see `bigToUint8Array_eq`) so that
the kernel can evaluate it. -/
def bigToUint8ArrayAux : Nat → Nat → List Nat
  | 0, n => [n]
  | fuel + 1, n => if n < 256 then [n] else bigToUint8ArrayAux fuel (n / 256) ++ [n % 256]

def bigToUint8Array (big : Nat) : List Nat := bigToUint8ArrayAux big big

/-- Semantics of `dst.set(src, off)` on a `Uint8Array`, for in-range writes
(`off + src.length ≤ dst.length`; out of that range JavaScript throws a
`RangeError`, which no validated call path can reach). -/
def uint8ArraySet (dst src : List Nat) (off : Nat) : List Nat :=
  dst.take off ++ src ++ dst.drop (off + src.length)

/-- Embeds `FF3Cipher.calculateP(i, radix, W, B)` (`FF3Cipher.js:130-151`). -/
def calculateP (i radix : Nat) (W B : List Nat) : List Nat :=
  let P := [W.getD 0 0, W.getD 1 0, W.getD 2 0, (W.getD 3 0) ^^^ i] ++ List.replicate 12 0
  let bBytes := bigToUint8Array (convertToBigInt (reverseString B) radix)
  uint8ArraySet P bBytes (16 - bBytes.length)

/-- Embeds `FF3Cipher.calculateTweak64_FF3_1(tweak56)` (`FF3Cipher.js:153-167`). -/
def calculateTweak64_FF3_1 (tweak56 : List Nat) : List Nat :=
  [tweak56.getD 0 0, tweak56.getD 1 0, tweak56.getD 2 0, (tweak56.getD 3 0) &&& 0xF0,
   tweak56.getD 4 0, tweak56.getD 5 0, tweak56.getD 6 0, ((tweak56.getD 3 0) &&& 0x0F) <<< 4]

/-- Embeds `FF3Cipher.mod(n, m) = ((n % m) + m) % m` (`FF3Cipher.js:128`);
JavaScript `%` on `BigInt` is the truncating remainder `Int.tmod`. -/
def jsMod (n m : Int) : Int := (n.tmod m + m).tmod m

/-- Embeds `c.toString(radix)` as a list of symbol values: minimal
most-significant-first rendering, `0 ↦ [0]` (fuel-structured like
`bigToUint8ArrayAux`, see `bigIntToString_eq`; the `radix ≤ 1` guard is vacuous
for the radices the constructor admits). -/
def bigIntToStringAux (radix : Nat) : Nat → Nat → List Nat
  | 0, n => [n]
  | fuel + 1, n =>
    if n < radix ∨ radix ≤ 1 then [n]
    else bigIntToStringAux radix fuel (n / radix) ++ [n % radix]

def bigIntToString (radix n : Nat) : List Nat := bigIntToStringAux radix n n

/-- Embeds the per-round rendering
`C = c.toString(radix); C = reverseString(C); C = C + "00000000".substring(0, m - C.length)`
(`FF3Cipher.js:270-272` and `380-382`): the pad is capped at the 8 characters
of the literal `"00000000"`. -/
def renderC (radix m c : Nat) : List Nat :=
  let C := reverseString (bigIntToString radix c)
  C ++ List.replicate (min (m - C.length) 8) 0

/-- Value of `BigInt('0x' + S.toString('hex'))`: the big-endian integer value
of a byte string. -/
def beBytesToBigInt (s : List Nat) : Nat :=
  s.foldl (fun a b => a * 256 + b) 0

/-- The thrown error strings of `FF3Cipher.js`, as structured values. -/
inductive FF3Error where
  | invalidKeyLength (bytes : Nat)
  | invalidRadix (radix : Nat)
  | invalidDomain
  | invalidMessageLength (n minLen maxLen : Nat)
  | invalidTweakLength (bytes : Nat)
deriving DecidableEq, Repr

/-- Embeds `this.minLen = Math.ceil(Math.log(DOMAIN_MIN) / Math.log(radix))`
(`FF3Cipher.js:78`) as the exact value of the formula it evaluates,
`⌈log_radix 1000000⌉`: the least `k` with `1000000 ≤ radix^k` (searched up to
20, enough for every radix ≥ 2 since `2^20 ≥ 1000000`).  ECMAScript leaves
`Math.log` implementation-approximated; the code's own comments
(`FF3Cipher.js:75,77`) document these exact values as its intent, and the
double-precision evaluation agrees with the exact formula for every radix in
[2,36]. -/
def minLenF (radix : Nat) : Nat :=
  ((List.range 21).find? (fun k => decide (1000000 ≤ radix ^ k))).getD 21

/-- Embeds `this.maxLen = 2 * Math.floor(Math.log(2**96) / Math.log(radix))`
(`FF3Cipher.js:81`) as the exact value of the formula it evaluates,
`2·⌊log_radix 2^96⌋`: twice the greatest `k ≤ 96` with `radix^k ≤ 2^96`
(same modelling note as `minLenF`). -/
def maxLenF (radix : Nat) : Nat :=
  2 * Nat.findGreatest (fun k => radix ^ k ≤ 2 ^ 96) 96

deriving instance DecidableEq for Except

/-- The cipher context built by the constructor: `radix`, the derived length
bounds, the (possibly expanded) tweak bytes, and the reversed key bytes the
AES oracle is keyed with. -/
structure Ctx where
  radix : Nat
  minLen : Nat
  maxLen : Nat
  tweakBytes : List Nat
  keyBytes : List Nat
deriving DecidableEq, Repr

/-- Embeds the `FF3Cipher` constructor (`FF3Cipher.js:69-124`) on the decoded
key and tweak bytes (`Buffer.from(_, 'hex')` decoding is Node library code):
reverse the key; derive `minLen`/`maxLen`; check the key length (16/24/32),
the radix range, and the derived bounds, in that order; store the tweak bytes,
expanded from 7 to 8 bytes when exactly 7 — with no other tweak-length check. -/
def construct (keyBytes tweak : List Nat) (radix : Nat) : Except FF3Error Ctx :=
  let keyRev := keyBytes.reverse
  let minLen := minLenF radix
  let maxLen := maxLenF radix
  if keyRev.length = 16 ∨ keyRev.length = 24 ∨ keyRev.length = 32 then
    if radix < 2 ∨ radix > 36 then
      .error (.invalidRadix radix)
    else if minLen < 2 ∨ maxLen < minLen then
      .error .invalidDomain
    else
      let tweakBytes := if tweak.length = 7 then calculateTweak64_FF3_1 tweak else tweak
      .ok ⟨radix, minLen, maxLen, tweakBytes, keyRev⟩
  else
    .error (.invalidKeyLength keyRev.length)

/-- One encrypt round body (`FF3Cipher.js:225-277`): compute `P`, reverse it,
apply the oracle, reverse the result, take its big-endian value `y`, set
`c = (toInt(reverse(A)) + y) mod radix^m` with the nonnegative `mod`, render
`C`, and shift halves `(A, B) ← (B, C)`. -/
def encryptRound (F : List Nat → List Nat) (radix u v : Nat) (Tl Tr : List Nat)
    (st : List Nat × List Nat) (i : Nat) : List Nat × List Nat :=
  let A := st.1; let B := st.2
  let m := if i % 2 = 0 then u else v
  let W := if i % 2 = 0 then Tr else Tl
  let P := calculateP i radix W B
  let S := (F P.reverse).reverse
  let y := beBytesToBigInt S
  let c := convertToBigInt (reverseString A) radix
  let c2 := jsMod ((c : Int) + (y : Int)) ((radix : Int) ^ m)
  let C := renderC radix m c2.toNat
  (B, C)

/-- One decrypt round body (`FF3Cipher.js:336-387`): as `encryptRound` but
`P` is computed from `A`, `y` is subtracted, and halves shift `(A, B) ← (C, A)`. -/
def decryptRound (F : List Nat → List Nat) (radix u v : Nat) (Tl Tr : List Nat)
    (st : List Nat × List Nat) (i : Nat) : List Nat × List Nat :=
  let A := st.1; let B := st.2
  let m := if i % 2 = 0 then u else v
  let W := if i % 2 = 0 then Tr else Tl
  let P := calculateP i radix W A
  let S := (F P.reverse).reverse
  let y := beBytesToBigInt S
  let c := convertToBigInt (reverseString B) radix
  let c2 := jsMod ((c : Int) - (y : Int)) ((radix : Int) ^ m)
  let C := renderC radix m c2.toNat
  (C, A)

/-- Embeds `FF3Cipher.encrypt(plaintext)` (`FF3Cipher.js:176-280`),
parameterised by the oracle family `aes` (key → 16-byte block → 16-byte
block); the stored context key (already reversed) selects the keyed oracle. -/
def encrypt (aes : List Nat → List Nat → List Nat) (ctx : Ctx)
    (plaintext : List Nat) : Except FF3Error (List Nat) :=
  let n := plaintext.length
  if n < ctx.minLen ∨ n > ctx.maxLen then
    .error (.invalidMessageLength n ctx.minLen ctx.maxLen)
  else if ctx.tweakBytes.length ≠ 8 ∧ ctx.tweakBytes.length ≠ 7 then
    .error (.invalidTweakLength ctx.tweakBytes.length)
  else
    let u := (n + 1) / 2
    let v := n - u
    let A := plaintext.take u
    let B := plaintext.drop u
    let Tl := ctx.tweakBytes.take 4
    let Tr := (ctx.tweakBytes.drop 4).take 4
    let F := aes ctx.keyBytes
    let fin := (List.range 8).foldl (encryptRound F ctx.radix u v Tl Tr) (A, B)
    .ok (fin.1 ++ fin.2)

/-- Embeds `FF3Cipher.decrypt(ciphertext)` (`FF3Cipher.js:290-390`): the same
validation and split, then the rounds from 7 down to 0. -/
def decrypt (aes : List Nat → List Nat → List Nat) (ctx : Ctx)
    (ciphertext : List Nat) : Except FF3Error (List Nat) :=
  let n := ciphertext.length
  if n < ctx.minLen ∨ n > ctx.maxLen then
    .error (.invalidMessageLength n ctx.minLen ctx.maxLen)
  else if ctx.tweakBytes.length ≠ 8 ∧ ctx.tweakBytes.length ≠ 7 then
    .error (.invalidTweakLength ctx.tweakBytes.length)
  else
    let u := (n + 1) / 2
    let v := n - u
    let A := ciphertext.take u
    let B := ciphertext.drop u
    let Tl := ctx.tweakBytes.take 4
    let Tr := (ctx.tweakBytes.drop 4).take 4
    let F := aes ctx.keyBytes
    let fin := (List.range 8).reverse.foldl (decryptRound F ctx.radix u v Tl Tr) (A, B)
    .ok (fin.1 ++ fin.2)

/-! ## Recursion equations for the fuel-structured primitives. -/

lemma chunks10Aux_congr :
    ∀ f1 : Nat, ∀ l : List Nat, ∀ f2 : Nat, l.length ≤ f1 → l.length ≤ f2 →
      chunks10Aux f1 l = chunks10Aux f2 l := by
  intro f1
  induction f1 with
  | zero =>
    intro l f2 h1 _
    cases l with
    | nil => cases f2 <;> rfl
    | cons x xs => simp at h1
  | succ g ih =>
    intro l f2 h1 h2
    cases l with
    | nil => cases f2 <;> rfl
    | cons x xs =>
      cases f2 with
      | zero => simp at h2
      | succ g2 =>
        simp only [chunks10Aux]
        congr 1
        exact ih _ _ (by simp only [List.length_drop, List.length_cons] at h1 ⊢; omega)
          (by simp only [List.length_drop, List.length_cons] at h2 ⊢; omega)

lemma chunks10_nil : chunks10 [] = [] := rfl

lemma chunks10_cons (x : Nat) (xs : List Nat) :
    chunks10 (x :: xs) = (x :: xs).take 10 :: chunks10 ((x :: xs).drop 10) := by
  show chunks10Aux (xs.length + 1) (x :: xs) = _
  simp only [chunks10Aux, chunks10]
  congr 1
  exact chunks10Aux_congr _ _ _
    (by simp only [List.length_drop, List.length_cons]; omega)
    (by simp only [List.length_drop, List.length_cons]; omega)

lemma bigToUint8ArrayAux_congr :
    ∀ f1 n f2 : Nat, n ≤ f1 → n ≤ f2 →
      bigToUint8ArrayAux f1 n = bigToUint8ArrayAux f2 n := by
  intro f1
  induction f1 with
  | zero =>
    intro n f2 h1 _
    interval_cases n
    cases f2 with
    | zero => rfl
    | succ g2 => simp [bigToUint8ArrayAux]
  | succ g ih =>
    intro n f2 h1 h2
    by_cases hn : n < 256
    · cases f2 with
      | zero =>
        interval_cases n
        simp [bigToUint8ArrayAux]
      | succ g2 => simp [bigToUint8ArrayAux, hn]
    · cases f2 with
      | zero => omega
      | succ g2 =>
        simp only [bigToUint8ArrayAux, if_neg hn]
        congr 1
        exact ih _ _ (by have := Nat.div_lt_self (by omega : 0 < n) (by omega : 1 < 256); omega)
          (by have := Nat.div_lt_self (by omega : 0 < n) (by omega : 1 < 256); omega)

lemma bigToUint8Array_eq (n : Nat) :
    bigToUint8Array n = if n < 256 then [n] else bigToUint8Array (n / 256) ++ [n % 256] := by
  show bigToUint8ArrayAux n n = _
  cases n with
  | zero => simp [bigToUint8ArrayAux]
  | succ m =>
    by_cases hn : m + 1 < 256
    · simp [bigToUint8ArrayAux, hn]
    · simp only [bigToUint8ArrayAux, if_neg hn]
      congr 1
      exact bigToUint8ArrayAux_congr _ _ _
        (by have := Nat.div_lt_self (by omega : 0 < m + 1) (by omega : 1 < 256); omega)
        (le_refl _)

lemma bigIntToStringAux_congr (radix : Nat) :
    ∀ f1 n f2 : Nat, n ≤ f1 → n ≤ f2 →
      bigIntToStringAux radix f1 n = bigIntToStringAux radix f2 n := by
  intro f1
  induction f1 with
  | zero =>
    intro n f2 h1 _
    interval_cases n
    cases f2 with
    | zero => rfl
    | succ g2 => simp only [bigIntToStringAux, if_pos (by omega : 0 < radix ∨ radix ≤ 1)]
  | succ g ih =>
    intro n f2 h1 h2
    by_cases hn : n < radix ∨ radix ≤ 1
    · cases f2 with
      | zero =>
        have : n = 0 := by omega
        subst this
        simp only [bigIntToStringAux, if_pos hn]
      | succ g2 => simp only [bigIntToStringAux, if_pos hn]
    · cases f2 with
      | zero =>
        exfalso; push_neg at hn; omega
      | succ g2 =>
        simp only [bigIntToStringAux, if_neg hn]
        push_neg at hn
        congr 1
        exact ih _ _
          (by have := Nat.div_lt_self (by omega : 0 < n) (by omega : 1 < radix); omega)
          (by have := Nat.div_lt_self (by omega : 0 < n) (by omega : 1 < radix); omega)

lemma bigIntToString_eq (radix n : Nat) :
    bigIntToString radix n =
      if n < radix ∨ radix ≤ 1 then [n]
      else bigIntToString radix (n / radix) ++ [n % radix] := by
  show bigIntToStringAux radix n n = _
  by_cases hn : n < radix ∨ radix ≤ 1
  · cases n with
    | zero => simp only [bigIntToStringAux, if_pos hn]
    | succ m => simp only [bigIntToStringAux, if_pos hn]
  · cases n with
    | zero => exfalso; push_neg at hn; omega
    | succ m =>
      simp only [bigIntToStringAux, if_neg hn]
      push_neg at hn
      congr 1
      exact bigIntToStringAux_congr _ _ _ _
        (by have := Nat.div_lt_self (by omega : 0 < m + 1) (by omega : 1 < radix); omega)
        (le_refl _)

/-! ## Positional value of digit strings: `convertToBigInt` agrees with the
plain most-significant-first positional value. -/

lemma digitsVal_foldl (radix : Nat) :
    ∀ (b : List Nat) (x : Nat),
      b.foldl (fun a d => a * radix + d) x = x * radix ^ b.length + digitsVal radix b := by
  intro b
  induction b with
  | nil => intro x; simp [digitsVal]
  | cons d t ih =>
    intro x
    show t.foldl _ (x * radix + d) = _
    rw [ih (x * radix + d)]
    have hd : digitsVal radix (d :: t) = d * radix ^ t.length + digitsVal radix t := by
      show t.foldl _ (0 * radix + d) = _
      rw [ih (0 * radix + d)]; ring
    rw [hd]
    simp [List.length_cons, pow_succ]
    ring

lemma digitsVal_append (radix : Nat) (a b : List Nat) :
    digitsVal radix (a ++ b) = digitsVal radix a * radix ^ b.length + digitsVal radix b := by
  show (a ++ b).foldl _ 0 = _
  rw [List.foldl_append, digitsVal_foldl]
  rfl

lemma chunks10_fold (radix : Nat) :
    ∀ (k : Nat) (l : List Nat), l.length ≤ k → l.length % 10 = 0 → ∀ x : Nat,
      (chunks10 l).foldl (fun r c => r * radix ^ 10 + digitsVal radix c) x
        = x * radix ^ l.length + digitsVal radix l := by
  intro k
  induction k with
  | zero =>
    intro l hk _ x
    have : l = [] := List.length_eq_zero.mp (by omega)
    subst this
    simp [chunks10_nil, digitsVal]
  | succ k ih =>
    intro l hk hdvd x
    cases l with
    | nil => simp [chunks10_nil, digitsVal]
    | cons y ys =>
      have hlen : (y :: ys).length ≥ 10 := by
        simp only [List.length_cons] at hdvd ⊢
        omega
      rw [chunks10_cons]
      simp only [List.foldl_cons]
      rw [ih ((y :: ys).drop 10)
        (by simp only [List.length_drop]; omega)
        (by simp only [List.length_drop]; omega)]
      have hsplit : (y :: ys).take 10 ++ (y :: ys).drop 10 = y :: ys := List.take_append_drop 10 _
      have hlen10 : ((y :: ys).take 10).length = 10 := by
        simp only [List.length_take]; omega
      calc (x * radix ^ 10 + digitsVal radix ((y :: ys).take 10)) * radix ^ ((y :: ys).drop 10).length
            + digitsVal radix ((y :: ys).drop 10)
          = (x * radix ^ (((y :: ys).take 10).length + ((y :: ys).drop 10).length))
            + (digitsVal radix ((y :: ys).take 10) * radix ^ ((y :: ys).drop 10).length
               + digitsVal radix ((y :: ys).drop 10)) := by
            rw [hlen10, pow_add]; ring
        _ = x * radix ^ (y :: ys).length + digitsVal radix (y :: ys) := by
            rw [← digitsVal_append, ← List.length_append, hsplit]

/-- `convertToBigInt` computes exactly the positional value of the digit
string: the chunked accumulation loses nothing. -/
lemma convertToBigInt_eq_digitsVal (value : List Nat) (radix : Nat) :
    convertToBigInt value radix = digitsVal radix value := by
  show (value.take _ :: chunks10 (value.drop _)).foldl _ 0 = _
  set i := if value.length % 10 = 0 then 10 else value.length % 10 with hi
  simp only [List.foldl_cons]
  rw [chunks10_fold radix (value.drop i).length _ (le_refl _)
    (by simp only [List.length_drop]; by_cases h : value.length % 10 = 0 <;> simp [hi, h] <;> omega)]
  rw [zero_mul, zero_add]
  have hsplit : value.take i ++ value.drop i = value := List.take_append_drop i value
  calc digitsVal radix (value.take i) * radix ^ (value.drop i).length + digitsVal radix (value.drop i)
      = digitsVal radix (value.take i ++ value.drop i) := (digitsVal_append radix _ _).symm
    _ = digitsVal radix value := by rw [hsplit]

/-- A valid digit string's value is below `radix ^ length`. -/
lemma digitsVal_lt (radix : Nat) (v : List Nat)
    (h : ∀ d ∈ v, d < radix) : digitsVal radix v < radix ^ v.length := by
  induction v with
  | nil => simp [digitsVal]
  | cons d t ih =>
    have hd : d < radix := h d (by simp)
    have ht : digitsVal radix t < radix ^ t.length := ih (fun x hx => h x (by simp [hx]))
    have hstep : digitsVal radix (d :: t) = d * radix ^ t.length + digitsVal radix t := by
      show t.foldl _ (0 * radix + d) = _
      rw [digitsVal_foldl]; ring
    rw [hstep, List.length_cons, pow_succ]
    calc d * radix ^ t.length + digitsVal radix t
        < d * radix ^ t.length + radix ^ t.length := by omega
      _ = (d + 1) * radix ^ t.length := by ring
      _ ≤ radix * radix ^ t.length := Nat.mul_le_mul_right _ (by omega)
      _ = radix ^ t.length * radix := by ring

/-! ## The minimal big-endian byte encoding. -/

lemma bigToUint8Array_ne_nil (n : Nat) : bigToUint8Array n ≠ [] := by
  rw [bigToUint8Array_eq]
  split <;> simp

lemma bigToUint8Array_length_le (k : Nat) :
    ∀ n : Nat, 1 ≤ k → n < 256 ^ k → (bigToUint8Array n).length ≤ k := by
  induction k with
  | zero => omega
  | succ k ih =>
    intro n _ hn
    by_cases h : n < 256
    · rw [bigToUint8Array_eq, if_pos h]; simp
    · have hk : 1 ≤ k := by
        by_contra hk
        have : k = 0 := by omega
        subst this
        simp [pow_succ] at hn
        omega
      rw [bigToUint8Array_eq, if_neg h]
      have hdiv : n / 256 < 256 ^ k := by
        rw [Nat.div_lt_iff_lt_mul (by omega : 0 < 256)]
        calc n < 256 ^ (k + 1) := hn
          _ = 256 ^ k * 256 := by rw [pow_succ]
      have := ih (n / 256) hk hdiv
      simp only [List.length_append, List.length_cons, List.length_nil]
      omega

lemma beBytesToBigInt_bigToUint8Array :
    ∀ n : Nat, beBytesToBigInt (bigToUint8Array n) = n := by
  intro n
  induction n using Nat.strong_induction_on with
  | _ n ih =>
    by_cases h : n < 256
    · rw [bigToUint8Array_eq, if_pos h]
      simp [beBytesToBigInt]
    · rw [bigToUint8Array_eq, if_neg h]
      show ((bigToUint8Array (n / 256)) ++ [n % 256]).foldl _ 0 = n
      rw [List.foldl_append]
      have := ih (n / 256) (Nat.div_lt_self (by omega) (by omega))
      show (bigToUint8Array (n / 256)).foldl _ 0 * 256 + n % 256 = n
      rw [show (bigToUint8Array (n / 256)).foldl (fun a b => a * 256 + b) 0
            = beBytesToBigInt (bigToUint8Array (n / 256)) from rfl, this]
      omega

/-- Minimality of the encoding: a nonzero value does not fit in one byte
fewer than the encoding uses. -/
lemma bigToUint8Array_minimal :
    ∀ n : Nat, n ≠ 0 → 256 ^ ((bigToUint8Array n).length - 1) ≤ n := by
  intro n
  induction n using Nat.strong_induction_on with
  | _ n ih =>
    intro hn
    by_cases h : n < 256
    · rw [bigToUint8Array_eq, if_pos h]
      simpa using by omega
    · rw [bigToUint8Array_eq, if_neg h]
      have hd0 : n / 256 ≠ 0 := by
        have : 256 ≤ n := by omega
        have := Nat.div_le_div_right (c := 256) this
        simp at this
        omega
      have hrec := ih (n / 256) (Nat.div_lt_self (by omega) (by omega)) hd0
      have hne := bigToUint8Array_ne_nil (n / 256)
      have hlen : 1 ≤ (bigToUint8Array (n / 256)).length := List.length_pos.mpr hne
      simp only [List.length_append, List.length_cons, List.length_nil]
      have : 256 ^ ((bigToUint8Array (n / 256)).length - 1) * 256 ≤ (n / 256) * 256 :=
        Nat.mul_le_mul_right _ hrec
      calc 256 ^ ((bigToUint8Array (n / 256)).length + 1 - 1)
          = 256 ^ ((bigToUint8Array (n / 256)).length - 1) * 256 := by
            rw [← pow_succ]
            congr 1
            omega
        _ ≤ (n / 256) * 256 := this
        _ ≤ n := by
            have := Nat.div_add_mod n 256
            omega

/-! ## Shape of the round input block `P`. -/

/-- When the encoded half fits in 12 bytes, `P.set(bBytes, 16 - len)` writes
only bytes `4..15`: the block is the 4 tweak/round bytes, then left zero
padding, then the encoding. -/
lemma calculateP_shape (i radix : Nat) (W B : List Nat)
    (h : (bigToUint8Array (convertToBigInt (reverseString B) radix)).length ≤ 12) :
    calculateP i radix W B =
      [W.getD 0 0, W.getD 1 0, W.getD 2 0, (W.getD 3 0) ^^^ i]
        ++ List.replicate (12 - (bigToUint8Array (convertToBigInt (reverseString B) radix)).length) 0
        ++ bigToUint8Array (convertToBigInt (reverseString B) radix) := by
  unfold calculateP uint8ArraySet
  set bB := bigToUint8Array (convertToBigInt (reverseString B) radix) with hbB
  show List.take (16 - bB.length) _ ++ bB ++ List.drop (16 - bB.length + bB.length) _ = _
  rw [List.take_append_eq_append_take, List.take_of_length_le (by simp; omega),
    List.take_replicate, List.drop_append_eq_append_drop]
  have h16 : 16 - bB.length + bB.length = 16 := by omega
  rw [h16, List.drop_eq_nil_of_le (by simp), List.drop_replicate]
  have hmin : min (16 - bB.length - [W.getD 0 0, W.getD 1 0, W.getD 2 0, W.getD 3 0 ^^^ i].length) 12
      = 12 - bB.length := by simp; omega
  rw [hmin]
  simp

/-! ## The always-nonnegative modulus. -/

lemma tmod_neg_left (a b : Int) : Int.tmod (-a) b = - Int.tmod a b := by
  cases a with
  | ofNat m =>
    cases m with
    | zero => simp
    | succ k =>
      cases b with
      | ofNat n => rfl
      | negSucc n => rfl
  | negSucc m =>
    cases b with
    | ofNat n =>
      show Int.tmod (Int.ofNat (m + 1)) (Int.ofNat n) = - Int.tmod (Int.negSucc m) (Int.ofNat n)
      simp [Int.tmod]
    | negSucc n =>
      show Int.tmod (Int.ofNat (m + 1)) (Int.negSucc n) = - Int.tmod (Int.negSucc m) (Int.negSucc n)
      simp [Int.tmod]

/-- `((n % m) + m) % m` with the truncating `%` equals the Euclidean
remainder. -/
lemma jsMod_eq_emod (n m : Int) (hm : 0 < m) : jsMod n m = n % m := by
  have hub : Int.tmod n m < m := Int.tmod_lt_of_pos n hm
  have hlb : -m < Int.tmod n m := by
    rcases le_or_lt 0 n with hn | hn
    · have := Int.tmod_nonneg m hn; omega
    · have h1 : Int.tmod n m = - Int.tmod (-n) m := by
        conv_lhs => rw [show n = -(-n) by ring]
        rw [tmod_neg_left]
      have h2 : 0 ≤ Int.tmod (-n) m := Int.tmod_nonneg m (by omega)
      have h3 : Int.tmod (-n) m < m := Int.tmod_lt_of_pos _ hm
      omega
  have hkey : Int.tmod n m % m = n % m := by
    rw [Int.tmod_def]
    calc (n - m * n.tdiv m) % m
        = (n + m * -n.tdiv m) % m := by congr 1; ring
      _ = n % m := Int.add_mul_emod_self_left n m (-n.tdiv m)
  show (Int.tmod n m + m).tmod m = n % m
  rw [Int.tmod_eq_emod (by omega) (by omega)]
  calc (Int.tmod n m + m) % m
      = (Int.tmod n m + m * 1) % m := by congr 1; ring
    _ = Int.tmod n m % m := Int.add_mul_emod_self_left _ m 1
    _ = n % m := hkey

/-! ## Destructuring a successful construction. -/

lemma construct_ok (keyBytes tweak : List Nat) (radix : Nat) (ctx : Ctx)
    (h : construct keyBytes tweak radix = .ok ctx) :
    ctx.radix = radix ∧ ctx.minLen = minLenF radix ∧ ctx.maxLen = maxLenF radix ∧
    ctx.keyBytes = keyBytes.reverse ∧
    ctx.tweakBytes = (if tweak.length = 7 then calculateTweak64_FF3_1 tweak else tweak) := by
  simp only [construct] at h
  split at h
  · split at h
    · simp at h
    · split at h
      · simp at h
      · simp only [Except.ok.injEq] at h
        subst h
        simp
  · simp at h

/-! ## Concrete data used by the claims: the NIST FF3 sample key and tweak,
and concrete inputs exhibiting the truncated-padding defect. -/

/-- Hex-decoded key `EF4359D8D580AA4F7F036D6F04FC6A94` (NIST FF3 sample 1). -/
def key1 : List Nat :=
  [0xEF, 0x43, 0x59, 0xD8, 0xD5, 0x80, 0xAA, 0x4F, 0x7F, 0x03, 0x6D, 0x6F, 0x04, 0xFC, 0x6A, 0x94]

/-- Hex-decoded tweak `D8E7920AFA330A73` (NIST FF3 sample 1). -/
def tweak1 : List Nat := [0xD8, 0xE7, 0x92, 0x0A, 0xFA, 0x33, 0x0A, 0x73]

/-- Hex-decoded 7-byte tweak `D8E7920AFA330A` (the FF3-1 test). -/
def tweak7 : List Nat := [0xD8, 0xE7, 0x92, 0x0A, 0xFA, 0x33, 0x0A]

/-- The radix-10 plaintext `"0000000000123456789"` (19 digits, in [6,56]):
its left half is `"0000000000"`, whose value 0 renders back through the
8-capped padding as only 9 zeros. -/
def ptC1 : List Nat := [0, 0, 0, 0, 0, 0, 0, 0, 0, 0, 1, 2, 3, 4, 5, 6, 7, 8, 9]

/-- What `decrypt(encrypt(ptC1))` actually returns: `"000000000123456789"`
(18 digits — one zero short). -/
def rtC1 : List Nat := [0, 0, 0, 0, 0, 0, 0, 0, 0, 1, 2, 3, 4, 5, 6, 7, 8, 9]

/-- The radix-2 plaintext `"00000000000100110010"` (20 binary digits, in
[20,192]): round 6 of encryption under `key1`/`tweak1` produces a half value
with a 1-digit rendering, which the 8-capped padding leaves one digit short. -/
def ptC2 : List Nat := [0, 0, 0, 0, 0, 0, 0, 0, 0, 0, 0, 1, 0, 0, 1, 1, 0, 0, 1, 0]

/-- What `encrypt(ptC2)` actually returns: 19 binary digits, not 20. -/
def ctC2 : List Nat := [0, 1, 1, 0, 1, 1, 1, 1, 1, 0, 1, 0, 0, 0, 0, 0, 0, 0, 0]

set_option maxRecDepth 100000

/-! ## Model validation against the repository's own test vectors. -/

/-- NIST ECB-AES128 single-block vector (the `AES ECB encryption` test). -/
lemma aes128_nist_block_vector :
    aes128Block
      [0x2b, 0x7e, 0x15, 0x16, 0x28, 0xae, 0xd2, 0xa6, 0xab, 0xf7, 0x15, 0x88, 0x09, 0xcf, 0x4f, 0x3c]
      [0x6b, 0xc1, 0xbe, 0xe2, 0x2e, 0x40, 0x9f, 0x96, 0xe9, 0x3d, 0x7e, 0x11, 0x73, 0x93, 0x17, 0x2a]
    = [0x3a, 0xd7, 0x7b, 0xb4, 0x0d, 0x7a, 0x36, 0x60, 0xa8, 0x9e, 0xca, 0xf3, 0x24, 0x66, 0xef, 0x97] := by
  decide

/-- The repository's `calculateP` unit test: NIST sample 1, round 0. -/
lemma calculateP_test_vector :
    calculateP 0 10 [0xFA, 0x33, 0x0A, 0x73] [5, 6, 7, 8, 9, 0, 0, 0, 0]
      = [250, 51, 10, 115, 0, 0, 0, 0, 0, 0, 0, 0, 0, 1, 129, 205] := by
  decide

/-- The repository's `radix` unit test of `FF3Cipher.mod`. -/
lemma jsMod_test_vector :
    jsMod (706456850 - 316291629567414359958402343312719325709) 1000000000 = 987131141 := by
  decide

/-- NIST FF3 sample 1 (`128dot1`): the model reproduces the published
ciphertext and its decryption. -/
lemma encrypt_nist_vector_1 :
    ((construct key1 tweak1 10).bind fun ctx =>
        encrypt aes128Block ctx [8, 9, 0, 1, 2, 1, 2, 3, 4, 5, 6, 7, 8, 9, 0, 0, 0, 0]).toOption
      = some [7, 5, 0, 9, 1, 8, 8, 1, 4, 0, 5, 8, 6, 5, 4, 6, 0, 7] := by
  decide

/-- NIST FF3 sample 1, decrypt direction. -/
lemma decrypt_nist_vector_1 :
    ((construct key1 tweak1 10).bind fun ctx =>
        decrypt aes128Block ctx [7, 5, 0, 9, 1, 8, 8, 1, 4, 0, 5, 8, 6, 5, 4, 6, 0, 7]).toOption
      = some [8, 9, 0, 1, 2, 1, 2, 3, 4, 5, 6, 7, 8, 9, 0, 0, 0, 0] := by
  decide

/-- The exponent `maxLenF radix / 2` is within budget: by construction of the
greatest-exponent search, `radix ^ (maxLenF radix / 2) ≤ 2 ^ 96`. -/
lemma pow_maxLenF_half_le (radix : Nat) :
    radix ^ Nat.findGreatest (fun k => radix ^ k ≤ 2 ^ 96) 96 ≤ 2 ^ 96 := by
  have hgen : ∀ b : Nat, radix ^ Nat.findGreatest (fun k => radix ^ k ≤ 2 ^ 96) b ≤ 2 ^ 96 := by
    intro b
    induction b with
    | zero => simp
    | succ b ih =>
      rw [Nat.findGreatest_succ]
      split
      · next h => exact h
      · exact ih
  exact hgen 96

/-! ## The claims. -/

/-- C3 (counterexample): constructing a context with a tweak of byte length
other than 7 or 8 does NOT fail at construction time — with a 5-byte tweak
the constructor returns a context, refuting "no context is produced for such
a tweak". -/
theorem c3_construct_accepts_bad_tweak_length :
    (construct key1 [1, 2, 3, 4, 5] 10).toOption.isSome = true := by decide

/-- C3 (amended): the constructor accepts a tweak of any byte length
(expanding exactly the 7-byte case); for a tweak whose length is neither 7
nor 8, it is `encrypt`/`decrypt` that fail with the invalid-tweak-length
error — before any round is executed, for every oracle — and no output is
produced. -/
theorem c3_tweak_length_checked_at_call (keyBytes tweak : List Nat) (radix : Nat) (ctx : Ctx)
    (hok : construct keyBytes tweak radix = .ok ctx)
    (h7 : tweak.length ≠ 7) (h8 : tweak.length ≠ 8)
    (aes : List Nat → List Nat → List Nat) (msg : List Nat)
    (hlen : ¬(msg.length < ctx.minLen ∨ msg.length > ctx.maxLen)) :
    encrypt aes ctx msg = .error (.invalidTweakLength tweak.length) ∧
    decrypt aes ctx msg = .error (.invalidTweakLength tweak.length) := by
  obtain ⟨-, -, -, -, htw⟩ := construct_ok _ _ _ _ hok
  rw [if_neg h7] at htw
  constructor
  · simp only [encrypt]
    rw [if_neg hlen, htw, if_pos ⟨h8, h7⟩]
  · simp only [decrypt]
    rw [if_neg hlen, htw, if_pos ⟨h8, h7⟩]

/-- C3 witness: under the NIST sample key with the 5-byte tweak `[1,2,3,4,5]`
and a 6-digit message, both calls fail with the invalid-tweak-length error. -/
theorem c3_tweak_length_checked_at_call_witness :
    encrypt (fun _ _ => List.replicate 16 0) ⟨10, 6, 56, [1, 2, 3, 4, 5], key1.reverse⟩ [1, 2, 3, 4, 5, 6]
      = .error (.invalidTweakLength 5) ∧
    decrypt (fun _ _ => List.replicate 16 0) ⟨10, 6, 56, [1, 2, 3, 4, 5], key1.reverse⟩ [1, 2, 3, 4, 5, 6]
      = .error (.invalidTweakLength 5) :=
  c3_tweak_length_checked_at_call key1 [1, 2, 3, 4, 5] 10
    ⟨10, 6, 56, [1, 2, 3, 4, 5], key1.reverse⟩ (by decide) (by decide) (by decide)
    (fun _ _ => List.replicate 16 0) [1, 2, 3, 4, 5, 6] (by decide)

/-- C4: expanding a 7-byte tweak copies bytes 0–2 and 4–6 verbatim, clears
the low nibble of byte 3, moves byte 3's low nibble into the high nibble of
the new byte 7 — so byte 3 is recoverable and all 56 bits are preserved —
and a successful construction stores exactly the expansion for a 7-byte
tweak and the unchanged tweak for an 8-byte one. -/
theorem c4_tweak_expansion (t t8 keyBytes : List Nat) (radix : Nat) (ctx7 ctx8 : Ctx)
    (h7 : t.length = 7) (hb : t.getD 3 0 < 256) (h8len : t8.length = 8)
    (hc7 : construct keyBytes t radix = .ok ctx7)
    (hc8 : construct keyBytes t8 radix = .ok ctx8) :
    (calculateTweak64_FF3_1 t).length = 8 ∧
    (calculateTweak64_FF3_1 t).take 3 = t.take 3 ∧
    (calculateTweak64_FF3_1 t).getD 3 0 = (t.getD 3 0) &&& 0xF0 ∧
    ((calculateTweak64_FF3_1 t).drop 4).take 3 = (t.drop 4).take 3 ∧
    (calculateTweak64_FF3_1 t).getD 7 0 = ((t.getD 3 0) &&& 0x0F) <<< 4 ∧
    ((calculateTweak64_FF3_1 t).getD 3 0) ||| (((calculateTweak64_FF3_1 t).getD 7 0) >>> 4)
      = t.getD 3 0 ∧
    ctx7.tweakBytes = calculateTweak64_FF3_1 t ∧
    ctx8.tweakBytes = t8 := by
  obtain ⟨-, -, -, -, htw7⟩ := construct_ok _ _ _ _ hc7
  obtain ⟨-, -, -, -, htw8⟩ := construct_ok _ _ _ _ hc8
  rw [if_pos h7] at htw7
  rw [if_neg (by omega)] at htw8
  have hrec : ∀ x : Nat, x < 256 → (x &&& 0xF0) ||| ((x &&& 0x0F) <<< 4 >>> 4) = x := by decide
  match t, h7 with
  | [a, b, c, d, e, f, g], _ =>
    refine ⟨rfl, rfl, rfl, rfl, rfl, ?_, htw7, htw8⟩
    simpa [calculateTweak64_FF3_1] using hrec d (by simpa using hb)

/-- C4 witness: the FF3-1 sample 7-byte tweak `D8E7920AFA330A` expanded under
the NIST sample key, together with the 8-byte tweak `D8E7920AFA330A73` passing
through. -/
theorem c4_tweak_expansion_witness :
    (calculateTweak64_FF3_1 tweak7).length = 8 ∧
    (calculateTweak64_FF3_1 tweak7).take 3 = tweak7.take 3 ∧
    (calculateTweak64_FF3_1 tweak7).getD 3 0 = (tweak7.getD 3 0) &&& 0xF0 ∧
    ((calculateTweak64_FF3_1 tweak7).drop 4).take 3 = (tweak7.drop 4).take 3 ∧
    (calculateTweak64_FF3_1 tweak7).getD 7 0 = ((tweak7.getD 3 0) &&& 0x0F) <<< 4 ∧
    ((calculateTweak64_FF3_1 tweak7).getD 3 0) ||| (((calculateTweak64_FF3_1 tweak7).getD 7 0) >>> 4)
      = tweak7.getD 3 0 ∧
    (⟨10, 6, 56, calculateTweak64_FF3_1 tweak7, key1.reverse⟩ : Ctx).tweakBytes
      = calculateTweak64_FF3_1 tweak7 ∧
    (⟨10, 6, 56, tweak1, key1.reverse⟩ : Ctx).tweakBytes = tweak1 :=
  c4_tweak_expansion tweak7 tweak1 key1 10
    ⟨10, 6, 56, calculateTweak64_FF3_1 tweak7, key1.reverse⟩
    ⟨10, 6, 56, tweak1, key1.reverse⟩
    (by decide) (by decide) (by decide) (by decide) (by decide)

/-- C5: when the value of the digit-reversed half is below `2^96`, its
minimal big-endian encoding (exact: decodes back to the value; minimal: a
nonzero value does not fit in one byte fewer) is at most 12 bytes, and the
round block is exactly the three tweak-half bytes, the fourth tweak byte
XORed with the round index, left zero padding, and the right-aligned
encoding. -/
theorem c5_round_block (i radix : Nat) (W B : List Nat)
    (hval : convertToBigInt (reverseString B) radix < 2 ^ 96) :
    (bigToUint8Array (convertToBigInt (reverseString B) radix)).length ≤ 12 ∧
    beBytesToBigInt (bigToUint8Array (convertToBigInt (reverseString B) radix))
      = convertToBigInt (reverseString B) radix ∧
    (convertToBigInt (reverseString B) radix ≠ 0 →
      256 ^ ((bigToUint8Array (convertToBigInt (reverseString B) radix)).length - 1)
        ≤ convertToBigInt (reverseString B) radix) ∧
    calculateP i radix W B =
      [W.getD 0 0, W.getD 1 0, W.getD 2 0, (W.getD 3 0) ^^^ i]
        ++ List.replicate (12 - (bigToUint8Array (convertToBigInt (reverseString B) radix)).length) 0
        ++ bigToUint8Array (convertToBigInt (reverseString B) radix) := by
  have h12 : (bigToUint8Array (convertToBigInt (reverseString B) radix)).length ≤ 12 :=
    bigToUint8Array_length_le 12 _ (by omega)
      (by rw [show (256 : Nat) ^ 12 = 2 ^ 96 by norm_num]; exact hval)
  exact ⟨h12, beBytesToBigInt_bigToUint8Array _,
    fun h0 => bigToUint8Array_minimal _ h0, calculateP_shape i radix W B h12⟩

/-- C5 witness: the repository's own `calculateP` test input (round 0,
radix 10, tweak half `FA330A73`, half `"567890000"`). -/
theorem c5_round_block_witness :
    convertToBigInt (reverseString [5, 6, 7, 8, 9, 0, 0, 0, 0]) 10 < 2 ^ 96 ∧
    ((bigToUint8Array (convertToBigInt (reverseString [5, 6, 7, 8, 9, 0, 0, 0, 0]) 10)).length ≤ 12 ∧
     beBytesToBigInt (bigToUint8Array (convertToBigInt (reverseString [5, 6, 7, 8, 9, 0, 0, 0, 0]) 10))
       = convertToBigInt (reverseString [5, 6, 7, 8, 9, 0, 0, 0, 0]) 10 ∧
     (convertToBigInt (reverseString [5, 6, 7, 8, 9, 0, 0, 0, 0]) 10 ≠ 0 →
       256 ^ ((bigToUint8Array (convertToBigInt (reverseString [5, 6, 7, 8, 9, 0, 0, 0, 0]) 10)).length - 1)
         ≤ convertToBigInt (reverseString [5, 6, 7, 8, 9, 0, 0, 0, 0]) 10) ∧
     calculateP 0 10 [0xFA, 0x33, 0x0A, 0x73] [5, 6, 7, 8, 9, 0, 0, 0, 0] =
       [([0xFA, 0x33, 0x0A, 0x73] : List Nat).getD 0 0, ([0xFA, 0x33, 0x0A, 0x73] : List Nat).getD 1 0,
        ([0xFA, 0x33, 0x0A, 0x73] : List Nat).getD 2 0, (([0xFA, 0x33, 0x0A, 0x73] : List Nat).getD 3 0) ^^^ 0]
         ++ List.replicate (12 - (bigToUint8Array (convertToBigInt (reverseString [5, 6, 7, 8, 9, 0, 0, 0, 0]) 10)).length) 0
         ++ bigToUint8Array (convertToBigInt (reverseString [5, 6, 7, 8, 9, 0, 0, 0, 0]) 10)) :=
  ⟨by decide, c5_round_block 0 10 [0xFA, 0x33, 0x0A, 0x73] [5, 6, 7, 8, 9, 0, 0, 0, 0] (by decide)⟩

/-- C6: for every integer `n` and positive `m`, `mod(n, m) = ((n % m) + m) % m`
with the truncating `%` is the Euclidean remainder: it equals `n`'s
nonnegative remainder, lies in `[0, m)`, and is congruent to `n` mod `m` —
so the per-round combination (addition or subtraction) is always reduced to a
nonnegative value. -/
theorem c6_mod_euclidean (n m : Int) (hm : 0 < m) :
    jsMod n m = n % m ∧ 0 ≤ jsMod n m ∧ jsMod n m < m ∧ jsMod n m % m = n % m := by
  have he := jsMod_eq_emod n m hm
  refine ⟨he, ?_, ?_, ?_⟩
  · rw [he]; exact Int.emod_nonneg n (by omega)
  · rw [he]; exact Int.emod_lt_of_pos n hm
  · rw [he]; exact Int.emod_emod_of_dvd n dvd_rfl

/-- C6 witness: the repository's own `mod` test input, a negative
intermediate subtraction result reduced modulo `10^9`. -/
theorem c6_mod_euclidean_witness :
    (0 : Int) < 1000000000 ∧
    (jsMod (706456850 - 316291629567414359958402343312719325709) 1000000000
        = (706456850 - 316291629567414359958402343312719325709) % 1000000000 ∧
      0 ≤ jsMod (706456850 - 316291629567414359958402343312719325709) 1000000000 ∧
      jsMod (706456850 - 316291629567414359958402343312719325709) 1000000000 < 1000000000 ∧
      jsMod (706456850 - 316291629567414359958402343312719325709) 1000000000 % 1000000000
        = (706456850 - 316291629567414359958402343312719325709) % 1000000000) :=
  ⟨by decide, c6_mod_euclidean (706456850 - 316291629567414359958402343312719325709) 1000000000 (by decide)⟩

/-- C7: the derived bounds are the claimed ceilings/floors — `minLen` is the
least exponent reaching 1,000,000 and half of `maxLen` is the greatest
exponent staying within `2^96` — with the concrete values 6/56 for radix 10,
5/40 for radix 26, and 4/36 for radix 36. -/
theorem c7_domain_bounds :
    minLenF 10 = 6 ∧ maxLenF 10 = 56 ∧
    minLenF 26 = 5 ∧ maxLenF 26 = 40 ∧
    minLenF 36 = 4 ∧ maxLenF 36 = 36 ∧
    (1000000 ≤ 10 ^ minLenF 10 ∧ 10 ^ (minLenF 10 - 1) < 1000000) ∧
    (1000000 ≤ 26 ^ minLenF 26 ∧ 26 ^ (minLenF 26 - 1) < 1000000) ∧
    (1000000 ≤ 36 ^ minLenF 36 ∧ 36 ^ (minLenF 36 - 1) < 1000000) ∧
    (10 ^ (maxLenF 10 / 2) ≤ 2 ^ 96 ∧ 2 ^ 96 < 10 ^ (maxLenF 10 / 2 + 1)) ∧
    (26 ^ (maxLenF 26 / 2) ≤ 2 ^ 96 ∧ 2 ^ 96 < 26 ^ (maxLenF 26 / 2 + 1)) ∧
    (36 ^ (maxLenF 36 / 2) ≤ 2 ^ 96 ∧ 2 ^ 96 < 36 ^ (maxLenF 36 / 2 + 1)) := by
  decide

/-- C8: a message shorter than `minLen` or longer than `maxLen` makes both
`encrypt` and `decrypt` fail with the invalid-message-length error for every
oracle — before any cryptographic work — and no output is produced. -/
theorem c8_length_validated_first (aes : List Nat → List Nat → List Nat) (ctx : Ctx)
    (msg : List Nat) (h : msg.length < ctx.minLen ∨ msg.length > ctx.maxLen) :
    encrypt aes ctx msg = .error (.invalidMessageLength msg.length ctx.minLen ctx.maxLen) ∧
    decrypt aes ctx msg = .error (.invalidMessageLength msg.length ctx.minLen ctx.maxLen) := by
  constructor
  · simp only [encrypt]
    rw [if_pos h]
  · simp only [decrypt]
    rw [if_pos h]

/-- C8 witness: a 5-digit message under the radix-10 bounds [6,56] is
rejected by both directions, independently of the oracle. -/
theorem c8_length_validated_first_witness :
    encrypt (fun _ _ => List.replicate 16 0) ⟨10, 6, 56, tweak1, key1.reverse⟩ [1, 2, 3, 4, 5]
      = .error (.invalidMessageLength 5 6 56) ∧
    decrypt (fun _ _ => List.replicate 16 0) ⟨10, 6, 56, tweak1, key1.reverse⟩ [1, 2, 3, 4, 5]
      = .error (.invalidMessageLength 5 6 56) :=
  c8_length_validated_first (fun _ _ => List.replicate 16 0)
    ⟨10, 6, 56, tweak1, key1.reverse⟩ [1, 2, 3, 4, 5] (by decide)

/-- C9: for any valid digit string no longer than half of `maxLen`, the value
of its digit reversal is strictly below `2^96`, so its encoding takes at most
12 bytes and the 16-byte round block keeps the four tweak-and-round bytes
intact (nothing is overwritten and nothing is written out of bounds). -/
theorem c9_half_encoding_fits (radix : Nat) (h2 : 2 ≤ radix) (h36 : radix ≤ 36)
    (B : List Nat) (hd : ∀ d ∈ B, d < radix)
    (hlen : B.length ≤ maxLenF radix / 2) (i : Nat) (W : List Nat) :
    convertToBigInt (reverseString B) radix < 2 ^ 96 ∧
    (bigToUint8Array (convertToBigInt (reverseString B) radix)).length ≤ 12 ∧
    (calculateP i radix W B).length = 16 ∧
    (calculateP i radix W B).take 4
      = [W.getD 0 0, W.getD 1 0, W.getD 2 0, (W.getD 3 0) ^^^ i] := by
  have hval : convertToBigInt (reverseString B) radix < 2 ^ 96 := by
    rw [convertToBigInt_eq_digitsVal]
    have h1 : digitsVal radix (reverseString B) < radix ^ (reverseString B).length :=
      digitsVal_lt radix _ (fun d hdm => hd d (by simpa [reverseString] using hdm))
    have h2l : (reverseString B).length = B.length := by simp [reverseString]
    rw [h2l] at h1
    have h3 : radix ^ B.length ≤ radix ^ (maxLenF radix / 2) :=
      Nat.pow_le_pow_right (by omega) hlen
    have h4 : radix ^ (maxLenF radix / 2) ≤ 2 ^ 96 := by
      have hhalf : maxLenF radix / 2 = Nat.findGreatest (fun k => radix ^ k ≤ 2 ^ 96) 96 := by
        unfold maxLenF
        omega
      rw [hhalf]
      exact pow_maxLenF_half_le radix
    omega
  have h12 : (bigToUint8Array (convertToBigInt (reverseString B) radix)).length ≤ 12 :=
    bigToUint8Array_length_le 12 _ (by omega)
      (by rw [show (256 : Nat) ^ 12 = 2 ^ 96 by norm_num]; exact hval)
  have hshape := calculateP_shape i radix W B h12
  refine ⟨hval, h12, ?_, ?_⟩
  · rw [hshape]
    simp only [List.length_append, List.length_cons, List.length_nil, List.length_replicate]
    omega
  · rw [hshape]
    rw [show ([W.getD 0 0, W.getD 1 0, W.getD 2 0, (W.getD 3 0) ^^^ i] : List Nat)
          ++ List.replicate (12 - (bigToUint8Array (convertToBigInt (reverseString B) radix)).length) 0
          ++ bigToUint8Array (convertToBigInt (reverseString B) radix)
        = [W.getD 0 0, W.getD 1 0, W.getD 2 0, (W.getD 3 0) ^^^ i]
          ++ (List.replicate (12 - (bigToUint8Array (convertToBigInt (reverseString B) radix)).length) 0
              ++ bigToUint8Array (convertToBigInt (reverseString B) radix)) from by
      simp [List.append_assoc]]
    rw [List.take_append_eq_append_take]
    simp

/-- C9 witness: the repository's `calculateP` test half `"567890000"` at
radix 10 (9 ≤ 28 = maxLen/2): the value 98765 fits, and the block keeps the
tweak bytes `FA330A` and `73 XOR 0`. -/
theorem c9_half_encoding_fits_witness :
    ([5, 6, 7, 8, 9, 0, 0, 0, 0] : List Nat).length ≤ maxLenF 10 / 2 ∧
    (convertToBigInt (reverseString [5, 6, 7, 8, 9, 0, 0, 0, 0]) 10 < 2 ^ 96 ∧
      (bigToUint8Array (convertToBigInt (reverseString [5, 6, 7, 8, 9, 0, 0, 0, 0]) 10)).length ≤ 12 ∧
      (calculateP 0 10 [0xFA, 0x33, 0x0A, 0x73] [5, 6, 7, 8, 9, 0, 0, 0, 0]).length = 16 ∧
      (calculateP 0 10 [0xFA, 0x33, 0x0A, 0x73] [5, 6, 7, 8, 9, 0, 0, 0, 0]).take 4
        = [([0xFA, 0x33, 0x0A, 0x73] : List Nat).getD 0 0, ([0xFA, 0x33, 0x0A, 0x73] : List Nat).getD 1 0,
           ([0xFA, 0x33, 0x0A, 0x73] : List Nat).getD 2 0, (([0xFA, 0x33, 0x0A, 0x73] : List Nat).getD 3 0) ^^^ 0]) :=
  ⟨by decide,
   c9_half_encoding_fits 10 (by decide) (by decide) [5, 6, 7, 8, 9, 0, 0, 0, 0]
     (by decide) (by decide) 0 [0xFA, 0x33, 0x0A, 0x73]⟩

/-- C10: a successful construction keys the oracle with the byte-reversal of
the decoded key, and both `encrypt` and `decrypt` depend on the oracle family
only through that reversed-key, encrypt-direction instance: two families that
agree there produce identical results in both directions. -/
theorem c10_oracle_keyed_with_reversed_key (keyBytes tweak : List Nat) (radix : Nat) (ctx : Ctx)
    (hok : construct keyBytes tweak radix = .ok ctx)
    (aes1 aes2 : List Nat → List Nat → List Nat)
    (hkey : aes1 keyBytes.reverse = aes2 keyBytes.reverse) (x : List Nat) :
    ctx.keyBytes = keyBytes.reverse ∧
    encrypt aes1 ctx x = encrypt aes2 ctx x ∧
    decrypt aes1 ctx x = decrypt aes2 ctx x := by
  obtain ⟨-, -, -, hk, -⟩ := construct_ok _ _ _ _ hok
  refine ⟨hk, ?_, ?_⟩
  · simp only [encrypt, hk, hkey]
  · simp only [decrypt, hk, hkey]

/-- C10 witness: under the NIST sample context, replacing the oracle family
by one that agrees at the reversed key leaves both directions unchanged. -/
theorem c10_oracle_keyed_with_reversed_key_witness :
    (⟨10, 6, 56, tweak1, key1.reverse⟩ : Ctx).keyBytes = key1.reverse ∧
    encrypt aes128Block ⟨10, 6, 56, tweak1, key1.reverse⟩ [1, 2, 3]
      = encrypt (fun k => aes128Block k) ⟨10, 6, 56, tweak1, key1.reverse⟩ [1, 2, 3] ∧
    decrypt aes128Block ⟨10, 6, 56, tweak1, key1.reverse⟩ [1, 2, 3]
      = decrypt (fun k => aes128Block k) ⟨10, 6, 56, tweak1, key1.reverse⟩ [1, 2, 3] :=
  c10_oracle_keyed_with_reversed_key key1 tweak1 10
    ⟨10, 6, 56, tweak1, key1.reverse⟩ (by decide) aes128Block (fun k => aes128Block k)
    rfl [1, 2, 3]

/-- C1 (code bug): under the NIST sample context (radix 10, 16-byte key,
8-byte tweak) and the valid 19-digit plaintext `"0000000000123456789"`,
`decrypt(encrypt(plaintext))` returns the 18-digit string
`"000000000123456789"`, not the plaintext: the `"00000000"` pad cap loses a
zero when the recovered left half (value 0) is rendered back to 10 digits. -/
theorem c1_roundtrip_fails_concrete :
    ptC1.length = 19 ∧ minLenF 10 ≤ ptC1.length ∧ ptC1.length ≤ maxLenF 10 ∧
    ptC1.all (· < 10) = true ∧
    ((construct key1 tweak1 10).bind fun ctx =>
        (encrypt aes128Block ctx ptC1).bind fun ct =>
          decrypt aes128Block ctx ct).toOption = some rtC1 ∧
    rtC1 ≠ ptC1 := by
  refine ⟨by decide, by decide, by decide, by decide, by decide, by decide⟩

/-- C2 (code bug): under the NIST sample key and tweak at radix 2, the valid
20-digit plaintext `"00000000000100110010"` encrypts to a 19-digit string:
a round value whose rendering needs 9 pad symbols gets only the 8 of
`"00000000"`, so `|encrypt(x)| ≠ |x|`. -/
theorem c2_encrypt_output_short_concrete :
    ptC2.length = 20 ∧ minLenF 2 ≤ ptC2.length ∧ ptC2.length ≤ maxLenF 2 ∧
    ptC2.all (· < 2) = true ∧
    ((construct key1 tweak1 2).bind fun ctx =>
        encrypt aes128Block ctx ptC2).toOption = some ctC2 ∧
    ctC2.length = 19 ∧ ctC2.length ≠ ptC2.length := by
  refine ⟨by decide, by decide, by decide, by decide, by decide, by decide, by decide⟩

end FF3
